import Mathlib

/-!
Verification of `organize_files_by_extension` (src/main.py).

The Python function is embedded shallowly: filesystem effects are resolved by
explicit data (`Config.entries` is the snapshot of the source tree produced by
the traversal, `Config.initialDest` the files already present under the
destination base) and by two oracles (`fm e` tells whether the per-extension
`mkdir` succeeds for candidate `e`, `fc e` whether `shutil.copy2` succeeds).
Strings are Lean strings; Python `str.lower()` is modelled per character with
`Char.toLower` (the ASCII range, which is all the program's own tokens use).
-/

set_option maxHeartbeats 1000000
set_option linter.unreachableTactic false
set_option linter.unusedTactic false
set_option linter.unnecessarySeqFocus false

namespace DataOrganizer

/-- A filesystem entry discovered by the recursive traversal
`input_folder.rglob("*")` (main.py line 42). `dirs` records the names of the
directories between the source root and the entry; the candidate filter at
line 44 never inspects it, only the base `name`. `isFile` models the result of
`file_path.is_file()`; `readable` models whether that test completes without
raising `OSError` (the `try` at lines 43-49). -/
structure Entry where
  dirs : List String
  name : String
  isFile : Bool
  readable : Bool
deriving DecidableEq

/-- Splits a character list at its last dot: `some (pre, suf)` when the list
is `pre ++ dot :: suf` with no further dot in `suf`, `none` when it contains
no dot. This mirrors `name.rfind(".")` inside `pathlib.PurePath.suffix`. -/
def suffixSplit : List Char → Option (List Char × List Char)
  | [] => none
  | c :: cs =>
    match suffixSplit cs with
    | some (pre, suf) => some (c :: pre, suf)
    | none => if c = '.' then some ([], cs) else none

/-- `pathlib.PurePath.suffix` of a base name: the slice from the last dot to
the end, and `""` when the last dot is the first character or the last one
(pathlib's guard `0 < i < len(name) - 1`). Used at main.py lines 60 and 82. -/
def pySuffix (name : String) : String :=
  match suffixSplit name.toList with
  | some (pre, suf) => if pre ≠ [] ∧ suf ≠ [] then String.mk ('.' :: suf) else ""
  | none => ""

/-- `pathlib.PurePath.stem`: the base name with `pySuffix` removed
(main.py line 81). -/
def pyStem (name : String) : String :=
  match suffixSplit name.toList with
  | some (pre, suf) => if pre ≠ [] ∧ suf ≠ [] then String.mk pre else name
  | none => name

/-- Python `str.lower()`, per character on the ASCII range
(main.py lines 37 and 60). -/
def lowerStr (s : String) : String := String.mk (s.toList.map Char.toLower)

/-- Python `str.lstrip(".")`: drop every leading dot (main.py line 60). -/
def lstripDot (s : String) : String :=
  String.mk (s.toList.dropWhile (fun c => c = '.'))

/-- The extension under which a candidate is classified (main.py lines 60-62):
`ext = file_path.suffix.lower().lstrip(".")`, with an empty result replaced by
the sentinel `"no_extension"`. -/
def extOf (name : String) : String :=
  let e := lstripDot (lowerStr (pySuffix name))
  if e = "" then "no_extension" else e

/-- `file_path.name.startswith(".")` (main.py line 44). -/
def hiddenName (name : String) : Bool :=
  match name.toList with
  | [] => false
  | c :: _ => c == '.'

/-- Normalization of the excluded-extension set (main.py line 37):
`set(ext.lower() for ext in (exclude_extensions or []))`, set membership being
modelled by list membership. Note that the tokens are lower-cased only; no
dot is stripped from them. -/
def normalizeExclude (tokens : List String) : List String := tokens.map lowerStr

/-- The collision name `f"{base_name}_{counter}{ext_with_dot}"`
(main.py line 85); `Nat.repr` is the decimal form the f-string produces. -/
def candName (stem sfx : String) (k : Nat) : String :=
  stem ++ "_" ++ Nat.repr k ++ sfx

/-- The `while dest_path.exists()` loop of main.py lines 83-87, probing
`candName stem sfx k`, `candName stem sfx (k+1)`, … until a name is absent
from the destination folder. The fuel argument only serves Lean's termination
checker; `resolveLoop_spec` together with `candName_fresh` shows the
fuel-exhausted fallback is never reached for the fuel chosen by
`resolveName`. -/
def resolveLoop (existing : List String) (stem sfx : String) : Nat → Nat → String
  | 0, k => candName stem sfx k
  | fuel + 1, k =>
    if existing.contains (candName stem sfx k) then
      resolveLoop existing stem sfx fuel (k + 1)
    else
      candName stem sfx k

/-- Destination-name resolution (main.py lines 79-87): the target name is the
source base name; while that name exists in the destination folder, `_1`,
`_2`, … is appended before the extension suffix, the counter restarting at 1
for every source file. -/
def resolveName (existing : List String) (name stem sfx : String) : String :=
  if existing.contains name then
    resolveLoop existing stem sfx (existing.length + 1) 1
  else
    name

/-- State threaded through the per-file loop: the three counters declared at
main.py lines 14-16 and the files present under the destination base, as
(folder, file name) pairs. -/
structure RunState where
  copied : Nat
  skipped : Nat
  errors : Nat
  dest : List (String × String)
deriving DecidableEq

/-- The file names present in one destination subfolder, the set probed by
`dest_path.exists()` (main.py line 84). -/
def destNamesIn (dest : List (String × String)) (folder : String) : List String :=
  (dest.filter (fun p => p.1 == folder)).map (fun p => p.2)

/-- The body of the per-file loop (main.py lines 58-97) on one candidate `e`,
given the normalized exclusion list `excl` and the environment oracles:
`fm e` is whether `output_folder.mkdir(exist_ok=True)` succeeds, `fc e`
whether `shutil.copy2` succeeds. Branches in source order: exclusion skip,
folder-creation failure, collision resolution, then copy. -/
def processFile (excl : List String) (fm fc : Entry → Bool) (st : RunState)
    (e : Entry) : RunState :=
  let ext := extOf e.name
  if excl.contains ext then
    { st with skipped := st.skipped + 1 }
  else if !fm e then
    { st with errors := st.errors + 1 }
  else
    let existing := destNamesIn st.dest ext
    let destName := resolveName existing e.name (pyStem e.name) (pySuffix e.name)
    if fc e then
      { st with copied := st.copied + 1, dest := st.dest ++ [(ext, destName)] }
    else
      { st with errors := st.errors + 1 }

/-- The `for file_path in all_files` loop (main.py line 58). -/
def processList (excl : List String) (fm fc : Entry → Bool) (st : RunState)
    (cs : List Entry) : RunState :=
  cs.foldl (processFile excl fm fc) st

/-- One step of the enumeration loop (main.py lines 42-49), accumulating the
candidate list and the (skipped, errors) counters. An entry whose `is_file()`
test raises is counted once as a skip and once as an error; a readable entry
joins the candidate list exactly when it is a regular file whose base name
does not start with a dot. -/
def enumStep (acc : List Entry × Nat × Nat) (e : Entry) : List Entry × Nat × Nat :=
  if e.readable then
    if e.isFile && !hiddenName e.name then (acc.1 ++ [e], acc.2.1, acc.2.2)
    else acc
  else (acc.1, acc.2.1 + 1, acc.2.2 + 1)

/-- The full enumeration phase building `all_files` (main.py lines 40-49). -/
def enumerate (entries : List Entry) : List Entry × Nat × Nat :=
  entries.foldl enumStep ([], 0, 0)

/-- The candidate predicate of main.py line 44 combined with readability. -/
def candPred (e : Entry) : Bool := e.readable && (e.isFile && !hiddenName e.name)

/-- The candidate set as a filter of the traversal snapshot. -/
def pyCandidates (entries : List Entry) : List Entry := entries.filter candPred

/-- One invocation's configuration and starting world. `sourceExists` and
`sourceIsDir` model the checks at main.py lines 23-28, `mkdirBaseOk` the
creation of the output base (lines 31-35), `traversalOk` whether `rglob`
itself completes without raising (lines 41-53), `entries` the snapshot of the
source tree yielded by the traversal, `exclude` the raw exclusion tokens, and
`initialDest` the (folder, name) pairs already present under the destination
base when the run starts. -/
structure Config where
  sourceExists : Bool
  sourceIsDir : Bool
  mkdirBaseOk : Bool
  traversalOk : Bool
  entries : List Entry
  exclude : List String
  initialDest : List (String × String)
deriving DecidableEq

/-- The observable outcome of a run: the returned boolean, whether the output
base directory was created, the final counters, the destination contents, and
the candidate list the loop iterated over. -/
structure RunOutcome where
  success : Bool
  destBaseCreated : Bool
  copied : Nat
  skipped : Nat
  errors : Nat
  destFiles : List (String × String)
  candidates : List Entry
deriving DecidableEq

/-- `organize_files_by_extension` (main.py lines 8-103): validation, output
base creation, exclusion normalization, enumeration, per-file loop, and the
final `return copied_files > 0`. -/
def organize (cfg : Config) (fm fc : Entry → Bool) : RunOutcome :=
  if !cfg.sourceExists then
    ⟨false, false, 0, 0, 0, cfg.initialDest, []⟩
  else if !cfg.sourceIsDir then
    ⟨false, false, 0, 0, 0, cfg.initialDest, []⟩
  else if !cfg.mkdirBaseOk then
    ⟨false, false, 0, 0, 0, cfg.initialDest, []⟩
  else
    let excl := normalizeExclude cfg.exclude
    let t := enumerate cfg.entries
    if !cfg.traversalOk then
      ⟨false, true, 0, t.2.1, t.2.2 + 1, cfg.initialDest, []⟩
    else
      let st := processList excl fm fc ⟨0, t.2.1, t.2.2, cfg.initialDest⟩ t.1
      ⟨decide (0 < st.copied), true, st.copied, st.skipped, st.errors, st.dest, t.1⟩

/-! Section: Structure of `suffixSplit`, `pySuffix` and `extOf` -/

theorem toList_mk (l : List Char) : (String.mk l).toList = l := rfl

theorem suffixSplit_none {cs : List Char} : suffixSplit cs = none ↔ '.' ∉ cs := by
  induction cs with
  | nil => simp [suffixSplit]
  | cons c cs ih =>
    cases hs : suffixSplit cs with
    | some p =>
      obtain ⟨pre, suf⟩ := p
      have hdot : '.' ∈ cs := by
        by_contra hn
        rw [← ih] at hn
        simp [hn] at hs
      simp [suffixSplit, hs, hdot]
    | none =>
      by_cases hc : c = '.'
      · simp [suffixSplit, hs, hc]
      · have : '.' ≠ c := fun h => hc h.symm
        simp [suffixSplit, hs, hc, this, ih.mp hs]

theorem suffixSplit_some {cs pre suf : List Char}
    (h : suffixSplit cs = some (pre, suf)) : cs = pre ++ '.' :: suf ∧ '.' ∉ suf := by
  induction cs generalizing pre suf with
  | nil => simp [suffixSplit] at h
  | cons c cs ih =>
    cases hs : suffixSplit cs with
    | some p =>
      obtain ⟨p1, p2⟩ := p
      simp only [suffixSplit, hs] at h
      obtain ⟨h1, h2⟩ := Prod.mk.injEq .. ▸ (Option.some.injEq .. ▸ h)
      obtain ⟨ha, hb⟩ := ih hs
      subst h1 h2
      exact ⟨by rw [ha]; rfl, hb⟩
    | none =>
      simp only [suffixSplit, hs] at h
      by_cases hc : c = '.'
      · rw [if_pos hc] at h
        obtain ⟨h1, h2⟩ := Prod.mk.injEq .. ▸ (Option.some.injEq .. ▸ h)
        subst h1 h2
        exact ⟨by rw [hc]; rfl, suffixSplit_none.mp hs⟩
      · rw [if_neg hc] at h
        exact absurd h (by simp)

theorem extOf_eq (name : String) :
    extOf name =
      if lstripDot (lowerStr (pySuffix name)) = "" then "no_extension"
      else lstripDot (lowerStr (pySuffix name)) := rfl

theorem pySuffix_eq_none {name : String} (hs : suffixSplit name.toList = none) :
    pySuffix name = "" := by
  unfold pySuffix
  rw [hs]

theorem pySuffix_eq_some {name : String} {pre suf : List Char}
    (hs : suffixSplit name.toList = some (pre, suf)) :
    pySuffix name = if pre ≠ [] ∧ suf ≠ [] then String.mk ('.' :: suf) else "" := by
  unfold pySuffix
  rw [hs]

theorem pyStem_eq_some {name : String} {pre suf : List Char}
    (hs : suffixSplit name.toList = some (pre, suf)) :
    pyStem name = if pre ≠ [] ∧ suf ≠ [] then String.mk pre else name := by
  unfold pyStem
  rw [hs]

theorem pySuffix_structure {name : String} (h : pySuffix name ≠ "") :
    ∃ suf : List Char, suf ≠ [] ∧ '.' ∉ suf ∧ pySuffix name = String.mk ('.' :: suf) := by
  cases hs : suffixSplit name.toList with
  | none => exact absurd (pySuffix_eq_none hs) h
  | some p =>
    obtain ⟨pre, suf⟩ := p
    rw [pySuffix_eq_some hs] at h ⊢
    by_cases hps : pre ≠ [] ∧ suf ≠ []
    · rw [if_pos hps]
      exact ⟨suf, hps.2, (suffixSplit_some hs).2, rfl⟩
    · rw [if_neg hps] at h
      exact absurd rfl h

theorem toLower_eq_dot {c : Char} (h : c.toLower = '.') : c = '.' := by
  simp only [Char.toLower] at h
  split at h
  · rename_i hc
    exfalso
    obtain ⟨h1, h2⟩ := hc
    generalize hg : c.toNat = m at h h1 h2
    interval_cases m <;> exact absurd h (by decide)
  · exact h

theorem extOf_of_no_dot {name : String} (h : '.' ∉ name.toList) :
    extOf name = "no_extension" := by
  rw [extOf_eq, pySuffix_eq_none (suffixSplit_none.mpr h)]
  decide

theorem extOf_sentinel (name : String) :
    extOf name = "no_extension" ↔
      pySuffix name = "" ∨ lowerStr (pySuffix name) = ".no_extension" := by
  constructor
  · intro h
    by_cases hemp : pySuffix name = ""
    · exact Or.inl hemp
    · refine Or.inr ?_
      obtain ⟨suf, hne, hnodot, heq⟩ := pySuffix_structure hemp
      obtain ⟨a, rest, rfl⟩ : ∃ a rest, suf = a :: rest := by
        cases suf with
        | nil => exact absurd rfl hne
        | cons a rest => exact ⟨a, rest, rfl⟩
      have hdotlow : Char.toLower '.' = '.' := by decide
      have hlow : lowerStr (String.mk ('.' :: a :: rest)) =
          String.mk ('.' :: a.toLower :: rest.map Char.toLower) := by
        simp [lowerStr, toList_mk, hdotlow]
      have hadot : a ≠ '.' := fun hh => hnodot (hh ▸ List.mem_cons_self a rest)
      have halow : decide (a.toLower = '.') = false :=
        decide_eq_false (fun hh => hadot (toLower_eq_dot hh))
      have hstrip : lstripDot (String.mk ('.' :: a.toLower :: rest.map Char.toLower)) =
          String.mk (a.toLower :: rest.map Char.toLower) := by
        simp [lstripDot, toList_mk, List.dropWhile, halow]
      have hne2 : String.mk (a.toLower :: rest.map Char.toLower) ≠ "" := by
        intro hh
        have h0 := congrArg String.toList hh
        rw [toList_mk] at h0
        have h1 : ("" : String).toList = [] := rfl
        rw [h1] at h0
        exact absurd h0 (by simp)
      rw [extOf_eq, heq, hlow, hstrip, if_neg hne2] at h
      have hlist : a.toLower :: rest.map Char.toLower = "no_extension".toList := by
        have := congrArg String.toList h
        rw [toList_mk] at this
        exact this
      rw [heq, hlow, hlist]
      rfl
  · intro h
    cases h with
    | inl h => rw [extOf_eq, h]; decide
    | inr h =>
      rw [extOf_eq, h]
      decide

/-! Section: Injectivity of the decimal form used in collision names -/

/-- Decimal decoding of a digit string; the left inverse showing `Nat.repr`
injective. -/
def decodeDigits (cs : List Char) : Nat :=
  cs.foldl (fun a c => 10 * a + (c.toNat - 48)) 0

theorem digitChar_toNat {d : Nat} (h : d < 10) : (Nat.digitChar d).toNat = 48 + d := by
  interval_cases d <;> decide

theorem toDigitsCore_fuel {n : Nat} :
    ∀ {f g : Nat} (ds : List Char), n < f → n < g →
      Nat.toDigitsCore 10 f n ds = Nat.toDigitsCore 10 g n ds := by
  induction n using Nat.strong_induction_on with
  | _ n ih =>
    intro f g ds hf hg
    match f, g with
    | f + 1, g + 1 =>
      simp only [Nat.toDigitsCore]
      by_cases h : n / 10 = 0
      · simp [h]
      · simp only [h, if_false]
        exact ih (n / 10) (by omega) _ (by omega) (by omega)

theorem toDigitsCore_append (f : Nat) : ∀ (n : Nat) (ds : List Char),
    Nat.toDigitsCore 10 f n ds = Nat.toDigitsCore 10 f n [] ++ ds := by
  induction f with
  | zero => intro n ds; simp [Nat.toDigitsCore]
  | succ f ih =>
    intro n ds
    simp only [Nat.toDigitsCore]
    by_cases h : n / 10 = 0
    · simp [h]
    · simp only [h, if_false]
      rw [ih (n / 10) (Nat.digitChar (n % 10) :: ds), ih (n / 10) [Nat.digitChar (n % 10)]]
      simp

theorem decode_toDigits (n : Nat) : decodeDigits (Nat.toDigits 10 n) = n := by
  induction n using Nat.strong_induction_on with
  | _ n ih =>
    unfold Nat.toDigits
    simp only [Nat.toDigitsCore]
    by_cases h : n / 10 = 0
    · have hd := digitChar_toNat (d := n % 10) (by omega)
      simp [h, decodeDigits, hd]
      omega
    · simp only [h, if_false]
      rw [toDigitsCore_append]
      rw [toDigitsCore_fuel (n := n / 10) [] (by omega) (Nat.lt_succ_self _)]
      have hrec : Nat.toDigitsCore 10 (n / 10 + 1) (n / 10) [] = Nat.toDigits 10 (n / 10) := rfl
      rw [hrec]
      have hd := digitChar_toNat (d := n % 10) (by omega)
      simp [decodeDigits, List.foldl_append, hd]
      have := ih (n / 10) (by omega)
      simp [decodeDigits] at this
      rw [this]
      omega

theorem natRepr_injective : Function.Injective Nat.repr := by
  intro m n h
  have hlist : Nat.toDigits 10 m = Nat.toDigits 10 n := by
    have hd := congrArg String.toList h
    simp only [Nat.repr, List.asString] at hd
    exact hd
  calc m = decodeDigits (Nat.toDigits 10 m) := (decode_toDigits m).symm
    _ = decodeDigits (Nat.toDigits 10 n) := by rw [hlist]
    _ = n := decode_toDigits n

theorem candName_injective (stem sfx : String) :
    Function.Injective (candName stem sfx) := by
  intro j k h
  apply natRepr_injective
  have hd := congrArg String.data h
  simp only [candName, String.data_append] at hd
  have h1 := List.append_cancel_right hd
  have h2 := List.append_cancel_left h1
  exact congrArg String.mk h2

/-! Section: Correctness of the collision-resolution loop -/

theorem contains_iff_mem {a : String} {l : List String} :
    l.contains a = true ↔ a ∈ l := by
  simp [List.contains, List.elem_iff]

theorem candName_fresh (existing : List String) (stem sfx : String) (k : Nat) :
    ∃ j, j < existing.length + 1 ∧ candName stem sfx (k + j) ∉ existing := by
  by_contra hcon
  push_neg at hcon
  have hmap : ((List.range (existing.length + 1)).map
      (fun j => candName stem sfx (k + j))).Nodup := by
    refine List.Nodup.map ?_ (List.nodup_range _)
    intro a b hab
    have := candName_injective stem sfx hab
    omega
  have hsub : ((List.range (existing.length + 1)).map
      (fun j => candName stem sfx (k + j))) ⊆ existing := by
    intro x hx
    simp only [List.mem_map, List.mem_range] at hx
    obtain ⟨j, hj, rfl⟩ := hx
    exact hcon j hj
  have hlen := (List.subperm_of_subset hmap hsub).length_le
  simp at hlen

theorem resolveLoop_spec (existing : List String) (stem sfx : String) :
    ∀ (fuel k : Nat), (∃ j, j < fuel ∧ candName stem sfx (k + j) ∉ existing) →
      ∃ j, resolveLoop existing stem sfx fuel k = candName stem sfx (k + j) ∧
        candName stem sfx (k + j) ∉ existing ∧
        ∀ i, i < j → candName stem sfx (k + i) ∈ existing := by
  intro fuel
  induction fuel with
  | zero =>
    intro k h
    obtain ⟨j, hj, _⟩ := h
    omega
  | succ fuel ih =>
    intro k h
    obtain ⟨j, hj, hfree⟩ := h
    by_cases hc : existing.contains (candName stem sfx k) = true
    · have hmem : candName stem sfx k ∈ existing := contains_iff_mem.mp hc
      have hj0 : j ≠ 0 := by
        rintro rfl
        exact hfree hmem
      have hshift : candName stem sfx (k + 1 + (j - 1)) ∉ existing := by
        rw [show k + 1 + (j - 1) = k + j by omega]
        exact hfree
      obtain ⟨j0, heq, hfr, hmin⟩ := ih (k + 1) ⟨j - 1, by omega, hshift⟩
      refine ⟨j0 + 1, ?_, ?_, ?_⟩
      · rw [resolveLoop, if_pos hc, heq]
        rw [show k + 1 + j0 = k + (j0 + 1) by omega]
      · rw [show k + (j0 + 1) = k + 1 + j0 by omega]
        exact hfr
      · intro i hi
        cases i with
        | zero => exact hmem
        | succ i =>
          rw [show k + (i + 1) = k + 1 + i by omega]
          exact hmin i (by omega)
    · refine ⟨0, ?_, ?_, ?_⟩
      · rw [resolveLoop, if_neg hc, Nat.add_zero]
      · rw [Nat.add_zero]
        intro hmem
        exact hc (contains_iff_mem.mpr hmem)
      · intro i hi
        omega

theorem resolveName_not_mem (existing : List String) (name stem sfx : String) :
    resolveName existing name stem sfx ∉ existing := by
  unfold resolveName
  by_cases hc : existing.contains name = true
  · rw [if_pos hc]
    obtain ⟨j, hj, hfree⟩ := candName_fresh existing stem sfx 1
    obtain ⟨j0, heq, hfr, _⟩ :=
      resolveLoop_spec existing stem sfx (existing.length + 1) 1 ⟨j, hj, hfree⟩
    rw [heq]
    exact hfr
  · rw [if_neg hc]
    intro hmem
    exact hc (contains_iff_mem.mpr hmem)

theorem resolveName_of_mem (existing : List String) (name stem sfx : String)
    (h : name ∈ existing) :
    ∃ k, 0 < k ∧ resolveName existing name stem sfx = candName stem sfx k ∧
      candName stem sfx k ∉ existing ∧
      ∀ i, 0 < i → i < k → candName stem sfx i ∈ existing := by
  have hc : existing.contains name = true := contains_iff_mem.mpr h
  obtain ⟨j, hj, hfree⟩ := candName_fresh existing stem sfx 1
  obtain ⟨j0, heq, hfr, hmin⟩ :=
    resolveLoop_spec existing stem sfx (existing.length + 1) 1 ⟨j, hj, hfree⟩
  refine ⟨1 + j0, by omega, ?_, hfr, ?_⟩
  · rw [resolveName, if_pos hc, heq]
  · intro i h0 hik
    rw [show i = 1 + (i - 1) by omega]
    exact hmin (i - 1) (by omega)

theorem resolveName_of_not_mem (existing : List String) (name stem sfx : String)
    (h : name ∉ existing) : resolveName existing name stem sfx = name := by
  rw [resolveName, if_neg (fun hc => h (contains_iff_mem.mp hc))]

/-! Section: Branch equations and invariants of the per-file loop -/

theorem processFile_excluded {excl : List String} {fm fc : Entry → Bool}
    {st : RunState} {e : Entry} (h : extOf e.name ∈ excl) :
    processFile excl fm fc st e = { st with skipped := st.skipped + 1 } := by
  simp [processFile, h]

theorem processFile_mkdir_fail {excl : List String} {fm fc : Entry → Bool}
    {st : RunState} {e : Entry} (h1 : extOf e.name ∉ excl)
    (h2 : fm e = false) :
    processFile excl fm fc st e = { st with errors := st.errors + 1 } := by
  simp [processFile, h1, h2]

theorem processFile_copy_ok {excl : List String} {fm fc : Entry → Bool}
    {st : RunState} {e : Entry} (h1 : extOf e.name ∉ excl)
    (h2 : fm e = true) (h3 : fc e = true) :
    processFile excl fm fc st e =
      { st with copied := st.copied + 1,
                dest := st.dest ++ [(extOf e.name,
                  resolveName (destNamesIn st.dest (extOf e.name)) e.name
                    (pyStem e.name) (pySuffix e.name))] } := by
  simp [processFile, h1, h2, h3]

theorem processFile_copy_fail {excl : List String} {fm fc : Entry → Bool}
    {st : RunState} {e : Entry} (h1 : extOf e.name ∉ excl)
    (h2 : fm e = true) (h3 : fc e = false) :
    processFile excl fm fc st e = { st with errors := st.errors + 1 } := by
  simp [processFile, h1, h2, h3]

/-- Per candidate, the loop body either counts a skip, counts an error, or
copies: in the last case the appended file name is absent from its
destination folder at that moment. -/
theorem processFile_cases (excl : List String) (fm fc : Entry → Bool)
    (st : RunState) (e : Entry) :
    processFile excl fm fc st e = { st with skipped := st.skipped + 1 } ∨
    processFile excl fm fc st e = { st with errors := st.errors + 1 } ∨
    ∃ nm, nm ∉ destNamesIn st.dest (extOf e.name) ∧
      processFile excl fm fc st e =
        { st with copied := st.copied + 1,
                  dest := st.dest ++ [(extOf e.name, nm)] } := by
  by_cases h1 : extOf e.name ∈ excl
  · exact Or.inl (processFile_excluded h1)
  · by_cases h2 : fm e = true
    · by_cases h3 : fc e = true
      · refine Or.inr (Or.inr ⟨_, ?_, processFile_copy_ok h1 h2 h3⟩)
        exact resolveName_not_mem _ _ _ _
      · rw [Bool.not_eq_true] at h3
        exact Or.inr (Or.inl (processFile_copy_fail h1 h2 h3))
    · rw [Bool.not_eq_true] at h2
      exact Or.inr (Or.inl (processFile_mkdir_fail h1 h2))

theorem processFile_sum (excl : List String) (fm fc : Entry → Bool)
    (st : RunState) (e : Entry) :
    (processFile excl fm fc st e).copied + (processFile excl fm fc st e).skipped +
        (processFile excl fm fc st e).errors =
      st.copied + st.skipped + st.errors + 1 := by
  rcases processFile_cases excl fm fc st e with h | h | ⟨nm, _, h⟩ <;> rw [h] <;> simp <;> omega

theorem processFile_mono (excl : List String) (fm fc : Entry → Bool)
    (st : RunState) (e : Entry) :
    st.copied ≤ (processFile excl fm fc st e).copied ∧
    st.skipped ≤ (processFile excl fm fc st e).skipped ∧
    st.errors ≤ (processFile excl fm fc st e).errors := by
  rcases processFile_cases excl fm fc st e with h | h | ⟨nm, _, h⟩ <;> rw [h] <;> simp <;> omega

theorem processFile_dest_len (excl : List String) (fm fc : Entry → Bool)
    (st : RunState) (e : Entry) :
    (processFile excl fm fc st e).dest.length + st.copied =
      st.dest.length + (processFile excl fm fc st e).copied := by
  rcases processFile_cases excl fm fc st e with h | h | ⟨nm, _, h⟩ <;> rw [h] <;> simp <;> omega

theorem pair_not_mem_of_fresh {dest : List (String × String)} {folder nm : String}
    (h : nm ∉ destNamesIn dest folder) : (folder, nm) ∉ dest := by
  intro hmem
  refine h ?_
  simp only [destNamesIn, List.mem_map]
  refine ⟨(folder, nm), ?_, rfl⟩
  simp [List.mem_filter, hmem]

theorem processFile_nodup (excl : List String) (fm fc : Entry → Bool)
    (st : RunState) (e : Entry) (h : st.dest.Nodup) :
    (processFile excl fm fc st e).dest.Nodup := by
  rcases processFile_cases excl fm fc st e with hc | hc | ⟨nm, hfr, hc⟩ <;> rw [hc]
  · exact h
  · exact h
  · have hnd : (extOf e.name, nm) ∉ st.dest := pair_not_mem_of_fresh hfr
    rw [List.nodup_append]
    refine ⟨h, by simp, ?_⟩
    intro a ha hb
    simp only [List.mem_singleton] at hb
    exact hnd (hb ▸ ha)

theorem processFile_dest_grows (excl : List String) (fm fc : Entry → Bool)
    (st : RunState) (e : Entry) :
    ∃ added, (processFile excl fm fc st e).dest = st.dest ++ added := by
  rcases processFile_cases excl fm fc st e with h | h | ⟨nm, _, h⟩ <;> rw [h]
  · exact ⟨[], by simp⟩
  · exact ⟨[], by simp⟩
  · exact ⟨[(extOf e.name, nm)], rfl⟩

/-! Section: Invariants of the whole loop -/

theorem processList_sum (excl : List String) (fm fc : Entry → Bool) :
    ∀ (cs : List Entry) (st : RunState),
      (processList excl fm fc st cs).copied + (processList excl fm fc st cs).skipped +
          (processList excl fm fc st cs).errors =
        st.copied + st.skipped + st.errors + cs.length := by
  intro cs
  induction cs with
  | nil => intro st; simp [processList]
  | cons e cs ih =>
    intro st
    have h1 := ih (processFile excl fm fc st e)
    have h2 := processFile_sum excl fm fc st e
    simp only [processList, List.foldl_cons] at h1 ⊢
    rw [h1, h2, List.length_cons]
    omega

theorem processList_mono (excl : List String) (fm fc : Entry → Bool) :
    ∀ (cs : List Entry) (st : RunState),
      st.copied ≤ (processList excl fm fc st cs).copied ∧
      st.skipped ≤ (processList excl fm fc st cs).skipped ∧
      st.errors ≤ (processList excl fm fc st cs).errors := by
  intro cs
  induction cs with
  | nil => intro st; simp [processList]
  | cons e cs ih =>
    intro st
    have h1 := ih (processFile excl fm fc st e)
    have h2 := processFile_mono excl fm fc st e
    simp only [processList, List.foldl_cons] at h1 ⊢
    omega

theorem processList_dest_len (excl : List String) (fm fc : Entry → Bool) :
    ∀ (cs : List Entry) (st : RunState),
      (processList excl fm fc st cs).dest.length + st.copied =
        st.dest.length + (processList excl fm fc st cs).copied := by
  intro cs
  induction cs with
  | nil => intro st; simp [processList]
  | cons e cs ih =>
    intro st
    have h1 := ih (processFile excl fm fc st e)
    have h2 := processFile_dest_len excl fm fc st e
    simp only [processList, List.foldl_cons] at h1 ⊢
    omega

theorem processList_nodup (excl : List String) (fm fc : Entry → Bool) :
    ∀ (cs : List Entry) (st : RunState), st.dest.Nodup →
      (processList excl fm fc st cs).dest.Nodup := by
  intro cs
  induction cs with
  | nil => intro st h; simpa [processList] using h
  | cons e cs ih =>
    intro st h
    simp only [processList, List.foldl_cons] at ih ⊢
    exact ih _ (processFile_nodup excl fm fc st e h)

theorem processList_dest_grows (excl : List String) (fm fc : Entry → Bool) :
    ∀ (cs : List Entry) (st : RunState),
      ∃ added, (processList excl fm fc st cs).dest = st.dest ++ added := by
  intro cs
  induction cs with
  | nil => intro st; exact ⟨[], by simp [processList]⟩
  | cons e cs ih =>
    intro st
    obtain ⟨a1, ha1⟩ := processFile_dest_grows excl fm fc st e
    obtain ⟨a2, ha2⟩ := ih (processFile excl fm fc st e)
    refine ⟨a1 ++ a2, ?_⟩
    simp only [processList, List.foldl_cons] at ha2 ⊢
    rw [ha2, ha1, List.append_assoc]

/-! Section: The enumeration phase -/

theorem enumerate_fst_go (es : List Entry) : ∀ (l : List Entry) (a b : Nat),
    (es.foldl enumStep (l, a, b)).1 = l ++ es.filter candPred := by
  induction es with
  | nil => intro l a b; simp
  | cons e es ih =>
    intro l a b
    simp only [List.foldl_cons]
    by_cases hr : e.readable = true
    · by_cases hp : (e.isFile && !hiddenName e.name) = true
      · have hstep : enumStep (l, a, b) e = (l ++ [e], a, b) := by
          simp [enumStep, hr, hp]
        have hc : candPred e = true := by simp [candPred, hr, hp]
        rw [hstep, ih]
        simp [List.filter_cons, hc]
      · have hstep : enumStep (l, a, b) e = (l, a, b) := by
          simp [enumStep, hr, hp]
        have hc : candPred e = false := by
          simp only [candPred, hr, Bool.true_and]
          simpa using hp
        rw [hstep, ih]
        simp [List.filter_cons, hc]
    · have hrf : e.readable = false := by simpa using hr
      have hstep : enumStep (l, a, b) e = (l, a + 1, b + 1) := by
        simp [enumStep, hrf]
      have hc : candPred e = false := by simp [candPred, hrf]
      rw [hstep, ih]
      simp [List.filter_cons, hc]

theorem enumerate_fst (entries : List Entry) :
    (enumerate entries).1 = pyCandidates entries := by
  have := enumerate_fst_go entries [] 0 0
  simpa [enumerate, pyCandidates] using this

/-! Section: Shape of the whole run -/

/-- The loop state at the end of a run that passed validation and
enumeration. -/
def runStateOf (cfg : Config) (fm fc : Entry → Bool) : RunState :=
  processList (normalizeExclude cfg.exclude) fm fc
    ⟨0, (enumerate cfg.entries).2.1, (enumerate cfg.entries).2.2, cfg.initialDest⟩
    (pyCandidates cfg.entries)

theorem organize_run (cfg : Config) (fm fc : Entry → Bool)
    (h1 : cfg.sourceExists = true) (h2 : cfg.sourceIsDir = true)
    (h3 : cfg.mkdirBaseOk = true) (h4 : cfg.traversalOk = true) :
    organize cfg fm fc =
      ⟨decide (0 < (runStateOf cfg fm fc).copied), true, (runStateOf cfg fm fc).copied,
       (runStateOf cfg fm fc).skipped, (runStateOf cfg fm fc).errors,
       (runStateOf cfg fm fc).dest, pyCandidates cfg.entries⟩ := by
  simp only [organize, h1, h2, h3, h4, Bool.not_true, Bool.false_eq_true, if_false]
  rw [runStateOf, enumerate_fst]

theorem organize_abort (cfg : Config) (fm fc : Entry → Bool)
    (h : cfg.sourceExists = false ∨ cfg.sourceIsDir = false) :
    organize cfg fm fc = ⟨false, false, 0, 0, 0, cfg.initialDest, []⟩ := by
  cases h with
  | inl h => simp [organize, h]
  | inr h =>
    cases h1 : cfg.sourceExists with
    | false => simp [organize, h1]
    | true => simp [organize, h1, h]

theorem organize_mkdir_fail (cfg : Config) (fm fc : Entry → Bool)
    (h1 : cfg.sourceExists = true) (h2 : cfg.sourceIsDir = true)
    (h3 : cfg.mkdirBaseOk = false) :
    organize cfg fm fc = ⟨false, false, 0, 0, 0, cfg.initialDest, []⟩ := by
  simp [organize, h1, h2, h3]

theorem organize_traversal_fail (cfg : Config) (fm fc : Entry → Bool)
    (h1 : cfg.sourceExists = true) (h2 : cfg.sourceIsDir = true)
    (h3 : cfg.mkdirBaseOk = true) (h4 : cfg.traversalOk = false) :
    organize cfg fm fc = ⟨false, true, 0, (enumerate cfg.entries).2.1,
      (enumerate cfg.entries).2.2 + 1, cfg.initialDest, []⟩ := by
  simp [organize, h1, h2, h3, h4]

theorem organize_candidates_cases (cfg : Config) (fm fc : Entry → Bool) :
    (organize cfg fm fc).candidates = [] ∨
    (organize cfg fm fc).candidates = pyCandidates cfg.entries := by
  by_cases h1 : cfg.sourceExists = true
  · by_cases h2 : cfg.sourceIsDir = true
    · by_cases h3 : cfg.mkdirBaseOk = true
      · by_cases h4 : cfg.traversalOk = true
        · right; rw [organize_run cfg fm fc h1 h2 h3 h4]
        · left; rw [organize_traversal_fail cfg fm fc h1 h2 h3 (by simpa using h4)]
      · left; rw [organize_mkdir_fail cfg fm fc h1 h2 (by simpa using h3)]
    · left; rw [organize_abort cfg fm fc (Or.inr (by simpa using h2))]
  · left; rw [organize_abort cfg fm fc (Or.inl (by simpa using h1))]

theorem organize_dest_cases (cfg : Config) (fm fc : Entry → Bool) :
    (organize cfg fm fc).destFiles = cfg.initialDest ∨
    (organize cfg fm fc).destFiles = (runStateOf cfg fm fc).dest := by
  by_cases h1 : cfg.sourceExists = true
  · by_cases h2 : cfg.sourceIsDir = true
    · by_cases h3 : cfg.mkdirBaseOk = true
      · by_cases h4 : cfg.traversalOk = true
        · right; rw [organize_run cfg fm fc h1 h2 h3 h4]
        · left; rw [organize_traversal_fail cfg fm fc h1 h2 h3 (by simpa using h4)]
      · left; rw [organize_mkdir_fail cfg fm fc h1 h2 (by simpa using h3)]
    · left; rw [organize_abort cfg fm fc (Or.inr (by simpa using h2))]
  · left; rw [organize_abort cfg fm fc (Or.inl (by simpa using h1))]

/-! Section: Claims -/

/-- C1: the organize operation returns `true` exactly when at least one file
was successfully copied during that run — the copied counter is positive —
and `false` otherwise, including runs aborted by validation, runs with zero
eligible candidates, and runs where every copy fails. The second conjunct
ties the counter to reality: the destination gained exactly `copied` files. -/
theorem organize_success_iff_copied (cfg : Config) (fm fc : Entry → Bool) :
    ((organize cfg fm fc).success = true ↔ 0 < (organize cfg fm fc).copied) ∧
    (organize cfg fm fc).destFiles.length =
      cfg.initialDest.length + (organize cfg fm fc).copied := by
  by_cases h1 : cfg.sourceExists = true
  · by_cases h2 : cfg.sourceIsDir = true
    · by_cases h3 : cfg.mkdirBaseOk = true
      · by_cases h4 : cfg.traversalOk = true
        · rw [organize_run cfg fm fc h1 h2 h3 h4]
          constructor
          · simp
          · have hl := processList_dest_len (normalizeExclude cfg.exclude) fm fc
              (pyCandidates cfg.entries)
              ⟨0, (enumerate cfg.entries).2.1, (enumerate cfg.entries).2.2, cfg.initialDest⟩
            simp only [runStateOf]
            simpa using hl
        · rw [organize_traversal_fail cfg fm fc h1 h2 h3 (by simpa using h4)]
          simp
      · rw [organize_mkdir_fail cfg fm fc h1 h2 (by simpa using h3)]
        simp
    · rw [organize_abort cfg fm fc (Or.inr (by simpa using h2))]
      simp
  · rw [organize_abort cfg fm fc (Or.inl (by simpa using h1))]
    simp

/-- C5: when the source path does not resolve to an existing directory, the
run fails immediately: it returns `false`, the destination base is not
created, no counter moves, the destination contents are untouched, and no
candidate is processed. -/
theorem source_validation_aborts (cfg : Config) (fm fc : Entry → Bool)
    (h : cfg.sourceExists = false ∨ cfg.sourceIsDir = false) :
    organize cfg fm fc = ⟨false, false, 0, 0, 0, cfg.initialDest, []⟩ :=
  organize_abort cfg fm fc h

theorem source_validation_aborts_witness :
    organize ⟨false, true, true, true, [⟨[], "a.txt", true, true⟩], [], [("txt", "old.txt")]⟩
        (fun _ => true) (fun _ => true) =
      ⟨false, false, 0, 0, 0, [("txt", "old.txt")], []⟩ :=
  source_validation_aborts _ _ _ (Or.inl rfl)

/-- C6: a per-file copy failure is caught in isolation — the error counter is
incremented by one, nothing else of the state changes, and the fold simply
moves to the next candidate. Concretely, in a run where copying `a.txt`
fails and copying `b.txt` succeeds, `b.txt` is still copied, one error is
counted, and the run still returns `true`. -/
theorem copy_failure_isolated :
    (∀ (excl : List String) (fm fc : Entry → Bool) (st : RunState) (e : Entry),
      extOf e.name ∉ excl → fm e = true → fc e = false →
      processFile excl fm fc st e = { st with errors := st.errors + 1 }) ∧
    (organize ⟨true, true, true, true,
        [⟨[], "a.txt", true, true⟩, ⟨[], "b.txt", true, true⟩], [], []⟩
      (fun _ => true) (fun e => e.name == "b.txt")) =
      ⟨true, true, 1, 0, 1, [("txt", "b.txt")],
        [⟨[], "a.txt", true, true⟩, ⟨[], "b.txt", true, true⟩]⟩ := by
  constructor
  · intro excl fm fc st e h1 h2 h3
    exact processFile_copy_fail h1 h2 h3
  · decide

theorem copy_failure_isolated_witness :
    processFile [] (fun _ => true) (fun _ => false) ⟨0, 0, 0, []⟩ ⟨[], "a.txt", true, true⟩ =
      ⟨0, 0, 1, []⟩ :=
  copy_failure_isolated.1 [] _ _ _ _ (by simp) rfl rfl

/-- C7: each candidate ends in exactly one of copied, excluded-skip, error —
per step the three counters together grow by exactly one while each of them
is monotone — hence over a whole run the counter deltas sum to the number of
candidates, and from zeroed counters `copied + skipped ≤ candidates`. -/
theorem counter_accounting (excl : List String) (fm fc : Entry → Bool) :
    (∀ (st : RunState) (e : Entry),
      (processFile excl fm fc st e).copied + (processFile excl fm fc st e).skipped +
          (processFile excl fm fc st e).errors = st.copied + st.skipped + st.errors + 1 ∧
      st.copied ≤ (processFile excl fm fc st e).copied ∧
      st.skipped ≤ (processFile excl fm fc st e).skipped ∧
      st.errors ≤ (processFile excl fm fc st e).errors) ∧
    (∀ (cs : List Entry) (st : RunState),
      (processList excl fm fc st cs).copied + (processList excl fm fc st cs).skipped +
          (processList excl fm fc st cs).errors =
        st.copied + st.skipped + st.errors + cs.length ∧
      st.copied ≤ (processList excl fm fc st cs).copied ∧
      st.skipped ≤ (processList excl fm fc st cs).skipped ∧
      st.errors ≤ (processList excl fm fc st cs).errors) ∧
    (∀ (cs : List Entry) (d : List (String × String)),
      (processList excl fm fc ⟨0, 0, 0, d⟩ cs).copied +
        (processList excl fm fc ⟨0, 0, 0, d⟩ cs).skipped ≤ cs.length) := by
  refine ⟨?_, ?_, ?_⟩
  · intro st e
    exact ⟨processFile_sum excl fm fc st e, processFile_mono excl fm fc st e⟩
  · intro cs st
    exact ⟨processList_sum excl fm fc cs st, processList_mono excl fm fc cs st⟩
  · intro cs d
    have hs := processList_sum excl fm fc cs ⟨0, 0, 0, d⟩
    simp only at hs
    omega

/-- C8: a file whose base name starts with a dot is never in the candidate
set of any run — whatever its extension, the exclusion list or the rest of
the configuration — and, when readable, it leaves the enumeration
accumulator (candidate list and counters) untouched. -/
theorem hidden_never_candidate (cfg : Config) (fm fc : Entry → Bool) (e : Entry)
    (h : hiddenName e.name = true) :
    e ∉ (organize cfg fm fc).candidates ∧ e ∉ pyCandidates cfg.entries ∧
    (e.readable = true → ∀ acc, enumStep acc e = acc) := by
  have hcp : candPred e = false := by simp [candPred, h]
  have hpc : e ∉ pyCandidates cfg.entries := by
    intro hmem
    rw [pyCandidates, List.mem_filter] at hmem
    rw [hcp] at hmem
    exact absurd hmem.2 (by simp)
  refine ⟨?_, hpc, ?_⟩
  · rcases organize_candidates_cases cfg fm fc with hc | hc <;> rw [hc]
    · simp
    · exact hpc
  · intro hr acc
    simp [enumStep, hr, h]

theorem hidden_never_candidate_witness :
    (⟨[], ".hidden.cfg", true, true⟩ : Entry) ∉
      (organize ⟨true, true, true, true, [⟨[], ".hidden.cfg", true, true⟩], [], []⟩
        (fun _ => true) (fun _ => true)).candidates ∧
    enumStep ([], 0, 0) ⟨[], ".hidden.cfg", true, true⟩ = ([], 0, 0) :=
  ⟨(hidden_never_candidate _ (fun _ => true) (fun _ => true) _ (by decide)).1,
   (hidden_never_candidate ⟨true, true, true, true, [⟨[], ".hidden.cfg", true, true⟩], [], []⟩
      (fun _ => true) (fun _ => true) _ (by decide)).2.2 rfl ([], 0, 0)⟩

/-- C9: the hidden-file filter inspects only the entry's own base name, never
its ancestor directories: any readable regular file whose base name does not
start with a dot is a candidate whatever `e.dirs` holds, and concretely a
file lying inside a hidden directory is enumerated and copied like any other
eligible file. -/
theorem hidden_dirs_not_filtered (cfg : Config) (fm fc : Entry → Bool) (e : Entry)
    (hmem : e ∈ cfg.entries) (hr : e.readable = true) (hf : e.isFile = true)
    (hn : hiddenName e.name = false)
    (h1 : cfg.sourceExists = true) (h2 : cfg.sourceIsDir = true)
    (h3 : cfg.mkdirBaseOk = true) (h4 : cfg.traversalOk = true) :
    e ∈ (organize cfg fm fc).candidates ∧
    (organize ⟨true, true, true, true, [⟨[".hidden"], "a.txt", true, true⟩], [], []⟩
        (fun _ => true) (fun _ => true)).destFiles = [("txt", "a.txt")] := by
  constructor
  · rw [organize_run cfg fm fc h1 h2 h3 h4]
    show e ∈ pyCandidates cfg.entries
    rw [pyCandidates, List.mem_filter]
    exact ⟨hmem, by simp [candPred, hr, hf, hn]⟩
  · decide

theorem hidden_dirs_not_filtered_witness :
    (⟨[".hidden"], "a.txt", true, true⟩ : Entry) ∈
      (organize ⟨true, true, true, true, [⟨[".hidden"], "a.txt", true, true⟩], [], []⟩
        (fun _ => true) (fun _ => true)).candidates :=
  (hidden_dirs_not_filtered _ _ _ _ (by decide) rfl rfl (by decide) rfl rfl rfl rfl).1

/-- C10: the candidate set is a fixed function of the traversal snapshot
taken before any folder creation or copy: every processed candidate comes
from the pre-run snapshot `cfg.entries` (so a file created in the
destination during the run, absent from the snapshot, is never enumerated,
classified or copied in that run), and on a run that reaches the loop the
candidate list is exactly the filter of that snapshot. -/
theorem candidates_fixed_snapshot (cfg : Config) (fm fc : Entry → Bool) :
    (∀ e, e ∈ (organize cfg fm fc).candidates → e ∈ cfg.entries) ∧
    (cfg.sourceExists = true → cfg.sourceIsDir = true → cfg.mkdirBaseOk = true →
      cfg.traversalOk = true →
      (organize cfg fm fc).candidates = pyCandidates cfg.entries) := by
  constructor
  · intro e he
    rcases organize_candidates_cases cfg fm fc with hc | hc <;> rw [hc] at he
    · exact absurd he (by simp)
    · exact List.mem_of_mem_filter he
  · intro h1 h2 h3 h4
    rw [organize_run cfg fm fc h1 h2 h3 h4]

theorem candidates_fixed_snapshot_witness :
    (⟨[], "a.txt", true, true⟩ : Entry) ∈
      (⟨true, true, true, true, [⟨[], "a.txt", true, true⟩], [], []⟩ : Config).entries ∧
    (organize ⟨true, true, true, true, [⟨[], "a.txt", true, true⟩], [], []⟩
        (fun _ => true) (fun _ => true)).candidates =
      pyCandidates (⟨true, true, true, true, [⟨[], "a.txt", true, true⟩], [], []⟩ :
        Config).entries :=
  ⟨(candidates_fixed_snapshot _ (fun _ => true) (fun _ => true)).1 _ (by decide),
   (candidates_fixed_snapshot _ _ _).2 rfl rfl rfl rfl⟩

/-- C3: collision policy. The resolved destination name is never a name
already present in the folder (no overwrite); when the plain name collides,
the result is `stem_k.suffix` for the least unused counter `k ≥ 1`; when it
does not collide the name is kept. At run level, a destination without
duplicate (folder, name) pairs never acquires one; and re-running on a
destination that already holds `txt/a.txt` yields `txt/a_1.txt` next to the
untouched original. -/
theorem collision_policy :
    (∀ (existing : List String) (name stem sfx : String),
      resolveName existing name stem sfx ∉ existing) ∧
    (∀ (existing : List String) (name stem sfx : String), name ∈ existing →
      ∃ k, 0 < k ∧ resolveName existing name stem sfx = candName stem sfx k ∧
        candName stem sfx k ∉ existing ∧
        ∀ i, 0 < i → i < k → candName stem sfx i ∈ existing) ∧
    (∀ (existing : List String) (name stem sfx : String), name ∉ existing →
      resolveName existing name stem sfx = name) ∧
    (∀ (cfg : Config) (fm fc : Entry → Bool), cfg.initialDest.Nodup →
      (organize cfg fm fc).destFiles.Nodup) ∧
    (organize ⟨true, true, true, true, [⟨[], "a.txt", true, true⟩], [], [("txt", "a.txt")]⟩
        (fun _ => true) (fun _ => true)).destFiles =
      [("txt", "a.txt"), ("txt", "a_1.txt")] := by
  refine ⟨?_, ?_, ?_, ?_, ?_⟩
  · intro existing name stem sfx
    exact resolveName_not_mem existing name stem sfx
  · intro existing name stem sfx h
    exact resolveName_of_mem existing name stem sfx h
  · intro existing name stem sfx h
    exact resolveName_of_not_mem existing name stem sfx h
  · intro cfg fm fc h
    rcases organize_dest_cases cfg fm fc with hc | hc <;> rw [hc]
    · exact h
    · exact processList_nodup _ fm fc _ _ h
  · decide

theorem collision_policy_witness :
    (∃ k, 0 < k ∧ resolveName ["a.txt"] "a.txt" "a" ".txt" = candName "a" ".txt" k ∧
      candName "a" ".txt" k ∉ ["a.txt"] ∧
      ∀ i, 0 < i → i < k → candName "a" ".txt" i ∈ ["a.txt"]) ∧
    resolveName ["a.txt"] "b.txt" "b" ".txt" = "b.txt" ∧
    (organize ⟨true, true, true, true, [⟨[], "a.txt", true, true⟩], [], [("txt", "a.txt")]⟩
        (fun _ => true) (fun _ => true)).destFiles.Nodup :=
  ⟨collision_policy.2.1 ["a.txt"] "a.txt" "a" ".txt" (by decide),
   collision_policy.2.2.1 ["a.txt"] "b.txt" "b" ".txt" (by decide),
   collision_policy.2.2.2.1 _ (fun _ => true) (fun _ => true) (by decide)⟩

/-- C2 as stated is false: the exclusion tokens are lower-cased but dots are
not stripped, so excluding `".txt"` (which the claim equates with `"TXT"`)
skips nothing — `a.txt` is copied, the skipped counter stays zero. -/
theorem exclusion_dot_token_not_skipped :
    (organize ⟨true, true, true, true, [⟨[], "a.txt", true, true⟩], [".txt"], []⟩
        (fun _ => true) (fun _ => true)) =
      ⟨true, true, 1, 0, 0, [("txt", "a.txt")], [⟨[], "a.txt", true, true⟩]⟩ := by
  decide

/-- C2 amended: the excluded-extension set is normalized by lower-casing
only (no dot stripping); a candidate is skipped exactly when its computed
dot-free lower-cased extension is a member of the normalized set, so the
match is case-insensitive in the token: excluding `"TXT"` skips every file
whose suffix is `.txt`, `.Txt` or `.TXT`. -/
theorem exclusion_case_insensitive :
    (∀ tokens : List String, normalizeExclude tokens = tokens.map lowerStr) ∧
    (∀ (tokens : List String) (fm fc : Entry → Bool) (st : RunState) (e : Entry),
      extOf e.name ∈ normalizeExclude tokens →
      processFile (normalizeExclude tokens) fm fc st e =
        { st with skipped := st.skipped + 1 }) ∧
    (∀ (tokens : List String) (fm fc : Entry → Bool) (st : RunState) (e : Entry),
      "TXT" ∈ tokens →
      (pySuffix e.name = ".txt" ∨ pySuffix e.name = ".Txt" ∨ pySuffix e.name = ".TXT") →
      processFile (normalizeExclude tokens) fm fc st e =
        { st with skipped := st.skipped + 1 }) := by
  refine ⟨fun _ => rfl, ?_, ?_⟩
  · intro tokens fm fc st e h
    exact processFile_excluded h
  · intro tokens fm fc st e htok hsuf
    have hext : extOf e.name = "txt" := by
      rcases hsuf with h | h | h <;> rw [extOf_eq, h] <;> decide
    refine processFile_excluded ?_
    rw [hext, normalizeExclude]
    exact List.mem_map.mpr ⟨"TXT", htok, by decide⟩

theorem exclusion_case_insensitive_witness :
    processFile (normalizeExclude ["TXT"]) (fun _ => true) (fun _ => true) ⟨0, 0, 0, []⟩
        ⟨[], "B.TXT", true, true⟩ = ⟨0, 1, 0, []⟩ ∧
    processFile (normalizeExclude ["TXT"]) (fun _ => true) (fun _ => true) ⟨0, 0, 0, []⟩
        ⟨[], "a.txt", true, true⟩ = ⟨0, 1, 0, []⟩ :=
  ⟨exclusion_case_insensitive.2.2 ["TXT"] _ _ _ _ (by decide)
      (Or.inr (Or.inr (by decide))),
   exclusion_case_insensitive.2.1 ["TXT"] _ _ _ _ (by decide)⟩

/-- C4 as stated is false: `data.no_extension` has a real extension (its
suffix `.no_extension` is nonempty) yet the run files it under the sentinel
folder `no_extension`, side by side with a genuinely extensionless file. -/
theorem sentinel_folder_shared :
    pySuffix "data.no_extension" = ".no_extension" ∧
    (organize ⟨true, true, true, true,
        [⟨[], "note", true, true⟩, ⟨[], "data.no_extension", true, true⟩], [], []⟩
      (fun _ => true) (fun _ => true)).destFiles =
        [("no_extension", "note"), ("no_extension", "data.no_extension")] := by
  decide

/-- C4 amended: every candidate whose base name holds no dot is classified
under the sentinel `no_extension`; conversely the sentinel bucket receives
only files with no (pathlib) suffix or whose suffix lower-cases to exactly
`.no_extension` — any file with a different real extension lands elsewhere. -/
theorem sentinel_classification :
    (∀ name : String, '.' ∉ name.toList → extOf name = "no_extension") ∧
    (∀ name : String, extOf name = "no_extension" →
      pySuffix name = "" ∨ lowerStr (pySuffix name) = ".no_extension") :=
  ⟨fun _ h => extOf_of_no_dot h, fun name h => (extOf_sentinel name).mp h⟩

theorem sentinel_classification_witness :
    extOf "note" = "no_extension" ∧
    (pySuffix "data.no_extension" = "" ∨
      lowerStr (pySuffix "data.no_extension") = ".no_extension") :=
  ⟨sentinel_classification.1 "note" (by decide),
   sentinel_classification.2 "data.no_extension" (by decide)⟩

end DataOrganizer
